import Mathlib

/-!
tupleware: a verification development.

A shallow embedding of `libmath/tupleware.h` (namespace `tupleware`).

* A tuple *type* `std::tuple<TYPES...>` is `Ty.tuple TYPES`, every other type is `Ty.elem`.
* A tuple *value* is the list of its slot values, slot 0 first.
* A template instantiation that is ill-formed (the program does not build) is `none`.
-/

namespace tupleware

/-! ## Types -/

/-- A C++ type as far as the header inspects it: an instantiation of `std::tuple`
(with the list of its slot types) or any other type, identified by a name. -/
inductive Ty where
  | elem (name : String) : Ty
  | tuple (TYPES : List Ty) : Ty

/-- The trait `is_tuple<INPUT>` (lines 14-19): `true_type` exactly for `std::tuple<TYPES...>`. -/
def is_tuple : Ty → Bool
  | Ty.tuple _ => true
  | Ty.elem _ => false

/-- The standard `std::get<INDEX>(values)` on a read-only tuple: the value of slot `INDEX`;
ill-formed when `INDEX` is not less than the tuple's length. -/
def std_get {V : Type} (INDEX : Nat) (values : List V) : Option V :=
  values[INDEX]?

/-- The standard `std::tuple_element_t<INDEX, std::tuple<TYPES...>>`: the type of slot `INDEX`;
ill-formed when `INDEX` is not less than `sizeof...(TYPES)`. -/
def tuple_element (INDEX : Nat) (TYPES : List Ty) : Option Ty :=
  TYPES[INDEX]?

/-! ## aggregate (lines 195-223) -/

/-- The `AGGREGATE_FUNCTOR` parameter of `aggregate`: `value_type` is `α`, with the static members
`initial_value` and `value(result, element)`; the slots of the folded tuple are values in `β`. -/
structure AggregateFunctor (α β : Type) where
  initial_value : α
  value : α → β → α

/-- The largest `size_t`. -/
def SIZE_MAX : Nat := 2 ^ 64 - 1

/-- The expression `sizeof...(TYPES) - 1` of line 220 in `size_t` arithmetic, where
`n = sizeof...(TYPES)`: it wraps around to `SIZE_MAX` for the empty pack. -/
def size_minus_one (n : Nat) : Nat :=
  if n = 0 then SIZE_MAX else n - 1

/-- The function `aggregate::iterate<RESULT_VALUE, TUPLE, INDEX>::get(result, values)`
(lines 198-213): the specialisation for `INDEX = 0` combines slot 0 and returns; the primary
template combines slot `INDEX` and continues with `INDEX - 1`. -/
def aggregate.iterate.get {α β : Type} (F : AggregateFunctor α β) :
    Nat → α → List β → Option α
  | 0, result, values => do
      let v ← std_get 0 values
      pure (F.value result v)
  | INDEX + 1, result, values => do
      let v ← std_get (INDEX + 1) values
      aggregate.iterate.get F INDEX (F.value result v) values

/-- The function `aggregate::from(values)` (lines 215-222). -/
def aggregate.from {α β : Type} (F : AggregateFunctor α β) (values : List β) : Option α :=
  aggregate.iterate.get F (size_minus_one values.length) F.initial_value values

/-! ## append (lines 35-48) -/

/-- The template `append<NEWTYPE, GIVEN_TUPLE>::type`. The primary template is only declared,
so a `GIVEN_TUPLE` that is not a tuple is ill-formed. Of the two partial specialisations the
one for `append<std::tuple<NEWTYPES...>, std::tuple<TYPES...>>` is the more specialised and is
selected whenever `NEWTYPE` is itself a tuple. -/
def append : Ty → Ty → Option Ty
  | Ty.tuple NEWTYPES, Ty.tuple TYPES => some (Ty.tuple (TYPES ++ NEWTYPES))
  | Ty.elem name, Ty.tuple TYPES => some (Ty.tuple (TYPES ++ [Ty.elem name]))
  | _, Ty.elem _ => none

/-! ## extract (lines 57-133) -/

/-- What an accessor `extract::operator()` hands back: the single-index specialisation returns
the selected slot itself, the general template returns a tuple of the selected slots. -/
inductive Extracted (α : Type) where
  | element (slot : α) : Extracted α
  | sequence (slots : List α) : Extracted α
  deriving DecidableEq

/-- The slots an extraction result gives access to, in order. -/
def Extracted.slots {α : Type} : Extracted α → List α
  | Extracted.element slot => [slot]
  | Extracted.sequence slots => slots

/-- The member `extract::enumerate<OUTPUT, INDEX0, INDEXES...>::type` (lines 65-70 and 84-88)
for the source `input_tuple = std::tuple<TYPES...>`: the last index appends its item to
`OUTPUT`; an earlier index appends its item and continues with the remaining indexes. -/
def extract.enumerate.type (TYPES : List Ty) : Ty → Nat → List Nat → Option Ty
  | OUTPUT, LASTINDEX, [] => do
      let item ← tuple_element LASTINDEX TYPES
      append item OUTPUT
  | OUTPUT, INDEX0, INDEX1 :: INDEXES => do
      let item ← tuple_element INDEX0 TYPES
      let output ← append item OUTPUT
      extract.enumerate.type TYPES output INDEX1 INDEXES

/-- The member `extract<INPUT_TUPLE, std::integer_sequence<size_t, INDEX...>>::type`: line 122
for a single index, line 103 for the general partial specialisation. The primary template is
only declared (an input that is no tuple is ill-formed), and with an empty index list line 103
names `enumerate<std::tuple<>>`, which lacks the mandatory `INDEX0` and is ill-formed. -/
def extract.type : Ty → List Nat → Option Ty
  | Ty.tuple TYPES, [INDEX] => tuple_element INDEX TYPES
  | Ty.tuple TYPES, INDEX0 :: INDEX1 :: INDEXES =>
      extract.enumerate.type TYPES (Ty.tuple []) INDEX0 (INDEX1 :: INDEXES)
  | Ty.tuple _, [] => none
  | Ty.elem _, _ => none

/-- The read-only overload `extract::enumerate<OUTPUT, INDEX0, INDEXES...>::get(input, args...)`
(lines 72-76 and 90-94): `args` are the slots read so far; the last index returns
`std::make_tuple(args..., std::get<LASTINDEX>(input))`. -/
def extract.enumerate.get {V : Type} (input : List V) : Nat → List Nat → List V → Option (List V)
  | LASTINDEX, [], args => do
      let v ← std_get LASTINDEX input
      pure (args ++ [v])
  | INDEX0, INDEX1 :: INDEXES, args => do
      let v ← std_get INDEX0 input
      extract.enumerate.get input INDEX1 INDEXES (args ++ [v])

/-- The type of the tuple that the read-only `enumerate::get` returns (lines 72-76 and 90-94):
`ARGS` are the types of the slots read so far, and `std::make_tuple` gives its result one slot
per argument, of that argument's decayed type. The standard library's type transformation
applied by `std::make_tuple` to the type of each argument (`std::decay_t`, which removes
references and cv-qualifiers) is the parameter `decay`. -/
def extract.enumerate.get_type (decay : Ty → Ty) (TYPES : List Ty) :
    Nat → List Nat → List Ty → Option Ty
  | LASTINDEX, [], ARGS => do
      let item ← tuple_element LASTINDEX TYPES
      pure (Ty.tuple ((ARGS ++ [item]).map decay))
  | INDEX0, INDEX1 :: INDEXES, ARGS => do
      let item ← tuple_element INDEX0 TYPES
      extract.enumerate.get_type decay TYPES INDEX1 INDEXES (ARGS ++ [item])

/-- The read-only accessor `extract::operator()(input_tuple const& input) const`: line 124 for a
single index, line 105 otherwise. -/
def extract.call {V : Type} (input : List V) : List Nat → Option (Extracted V)
  | [INDEX] => (std_get INDEX input).map Extracted.element
  | INDEX0 :: INDEX1 :: INDEXES =>
      (extract.enumerate.get input INDEX0 (INDEX1 :: INDEXES) []).map Extracted.sequence
  | [] => none

/-- An lvalue `std::get<slot>(input)` of the mutable source tuple `input`: a reference to
slot `slot` of the source. -/
structure SlotRef where
  slot : Nat
  deriving DecidableEq

/-- The standard `std::get<INDEX>(input)` on a mutable tuple: a reference to slot `INDEX`;
ill-formed when `INDEX` is not less than the tuple's length. -/
def std_get_ref {V : Type} (INDEX : Nat) (input : List V) : Option SlotRef :=
  if INDEX < input.length then some (SlotRef.mk INDEX) else none

/-- Reading through a reference into the source tuple. -/
def SlotRef.read {V : Type} (r : SlotRef) (input : List V) : Option V :=
  input[r.slot]?

/-- Assigning `v` through a reference into the source tuple: the source afterwards. -/
def SlotRef.write {V : Type} (r : SlotRef) (input : List V) (v : V) : List V :=
  input.set r.slot v

/-- The mutable overload `extract::enumerate<OUTPUT, INDEX0, INDEXES...>::get(input, args...)`
(lines 77-81 and 95-99): `args` are the references taken so far; the last index returns
`std::forward_as_tuple(args..., std::get<LASTINDEX>(input))`, a tuple of references. -/
def extract.enumerate.get_mut {V : Type} (input : List V) :
    Nat → List Nat → List SlotRef → Option (List SlotRef)
  | LASTINDEX, [], args => do
      let r ← std_get_ref LASTINDEX input
      pure (args ++ [r])
  | INDEX0, INDEX1 :: INDEXES, args => do
      let r ← std_get_ref INDEX0 input
      extract.enumerate.get_mut input INDEX1 INDEXES (args ++ [r])

/-- The mutable accessor `extract::operator()(input_tuple& input) const`: line 129 for a single
index (it returns the reference `std::get<INDEX>(input)`), line 109 otherwise. -/
def extract.call_mut {V : Type} (input : List V) : List Nat → Option (Extracted SlotRef)
  | [INDEX] => (std_get_ref INDEX input).map Extracted.element
  | INDEX0 :: INDEX1 :: INDEXES =>
      (extract.enumerate.get_mut input INDEX0 (INDEX1 :: INDEXES) []).map Extracted.sequence
  | [] => none

/-! ## visitors and foreach (lines 135-181) -/

/-- Conversions between the types of the slots, for slot types `τ` and slot values `V`:
`cast T v` is the functional cast `T(v)` of the value `v` to the type `T`, and `init T` is the
value-initialised object `T{}`. -/
structure Conversion (τ V : Type) where
  cast : τ → V → V
  init : τ → V

/-- A value `v` is a value of the type `T` when converting it to `T` leaves it as it is. -/
def Conversion.inhabits {τ V : Type} (c : Conversion τ V) (T : τ) (v : V) : Prop :=
  c.cast T v = v

/-- Unsigned fixed-width integers: the type is the width `w` in bits, conversion to it is
reduction modulo `2 ^ w`, and value-initialisation gives zero. -/
def fixedWidth : Conversion Nat Nat where
  cast w v := v % 2 ^ w
  init _ := 0

/-- How a function parameter of a visitor is declared: `T&` or `T const&`. -/
inductive Param where
  | lref : Param
  | const_lref : Param
  deriving DecidableEq

/-- Whether an lvalue argument of type `T` (const-qualified or not) can be bound to a parameter
declared with exactly that `T` given explicitly: `T&` does not bind a const object. -/
def Param.binds : Param → Bool → Bool
  | Param.lref, argIsConst => !argIsConst
  | Param.const_lref, _ => true

/-- A visitor strategy: a struct with a static member template
`visit<INDEX, RETURN_TUPLE, ARGS...>(args...)`. `A` is the argument pack it takes, `params`
is how it declares its function parameters, and `visit` is `none` where the instantiation is
ill-formed. -/
structure Visitor (τ V A : Type) where
  params : List Param
  visit : Conversion τ V → Nat → List τ → A → Option V

/-- The strategy `visitors::get` (lines 137-144):
`visit(TUPLE& values)` returns `std::tuple_element_t<INDEX, RETURN_TUPLE>(std::get<INDEX>(values))`. -/
def visitors.get {τ V : Type} : Visitor τ V (List V) where
  params := [Param.lref]
  visit c INDEX RETURN_TUPLE values := do
    let T ← RETURN_TUPLE[INDEX]?
    let v ← std_get INDEX values
    pure (c.cast T v)

/-- The strategy `visitors::repeat` (lines 146-153):
`visit(VALUE const& value)` returns `std::tuple_element_t<INDEX, RESULT_TUPLE>(value)`. -/
def visitors.repeat {τ V : Type} : Visitor τ V V where
  params := [Param.const_lref]
  visit c INDEX RESULT_TUPLE value := do
    let T ← RESULT_TUPLE[INDEX]?
    pure (c.cast T value)

/-- The strategy `visitors::merger` (lines 155-162):
`visit(TUPLE const& values, MERGER const& merger)` returns `merger(std::get<INDEX>(values))`;
`RETURN_TYPE` is not used. -/
def visitors.merger {τ V : Type} : Visitor τ V (List V × (V → V)) where
  params := [Param.const_lref, Param.const_lref]
  visit _ INDEX _ args := do
    let v ← std_get INDEX args.1
    pure (args.2 v)

/-- The braced initialisation `RESULT_TUPLE{ vals... }` of lines 173 and 178: with no
initialiser the tuple is value-initialised; otherwise the converting constructor of
`std::tuple` needs exactly one initialiser per slot and converts each to its slot's type. -/
def foreach.construct {τ V : Type} (c : Conversion τ V) (RESULT_TUPLE : List τ) :
    List V → Option (List V)
  | [] => some (RESULT_TUPLE.map c.init)
  | v :: vals =>
      if (v :: vals).length = RESULT_TUPLE.length then
        some (List.zipWith c.cast RESULT_TUPLE (v :: vals))
      else none

/-- The pack expansion `VISITOR::visit<INDEX, TRANSFORM_TUPLE, ARGS...>(args...)...` of lines
173 and 178: one instantiation of the visitor per index of the index sequence, in the order of
the sequence; `visit` is the visitor applied to the call's fixed arguments. -/
def foreach.expand {V : Type} (visit : Nat → Option V) : List Nat → Option (List V)
  | [] => some []
  | INDEX0 :: INDEXES => do
      let v ← visit INDEX0
      let vs ← foreach.expand visit INDEXES
      pure (v :: vs)

/-- The entry point `foreach::visit(std::index_sequence<INDEX...>, ARGS& ... args)` of lines
170-174, called with mutable lvalues: `ARGS` are deduced as the arguments' own types, these are
handed on explicitly in `VISITOR::visit<INDEX, TRANSFORM_TUPLE, ARGS...>(args...)`, and the
arguments are mutable lvalues there. -/
def foreach.visit {τ V A : Type} (c : Conversion τ V) (TRANSFORM_TUPLE : List τ)
    (VISITOR : Visitor τ V A) (RESULT_TUPLE : List τ) (INDEX : List Nat) (args : A) :
    Option (List V) :=
  if VISITOR.params.all (fun p => p.binds false) then do
    let vals ← foreach.expand (fun i => VISITOR.visit c i TRANSFORM_TUPLE args) INDEX
    foreach.construct c RESULT_TUPLE vals
  else none

/-- The entry point `foreach::visit(std::index_sequence<INDEX...>, ARGS const& ... args)` of
lines 175-179, called with read-only arguments: `ARGS` are deduced as the arguments' types
without `const`, these are handed on explicitly in
`VISITOR::visit<INDEX, TRANSFORM_TUPLE, ARGS...>(args...)`, and the arguments are const lvalues
there. -/
def foreach.visit_const {τ V A : Type} (c : Conversion τ V) (TRANSFORM_TUPLE : List τ)
    (VISITOR : Visitor τ V A) (RESULT_TUPLE : List τ) (INDEX : List Nat) (args : A) :
    Option (List V) :=
  if VISITOR.params.all (fun p => p.binds true) then do
    let vals ← foreach.expand (fun i => VISITOR.visit c i TRANSFORM_TUPLE args) INDEX
    foreach.construct c RESULT_TUPLE vals
  else none


/-! ## ntuple (lines 22-31) and repeat_v (lines 183-192) -/

/-- The template `ntuple<TYPE, N, RESULT...>::type` (lines 22-29), as the list of the slot
types of the resulting `std::tuple`: the specialisation for `N = 0` is `std::tuple<RESULT...>`,
the primary template continues with `ntuple<TYPE, N - 1, RESULT..., TYPE>`. -/
def ntuple {τ : Type} (TYPE : τ) : Nat → List τ → List τ
  | 0, RESULT => RESULT
  | N + 1, RESULT => ntuple TYPE N (RESULT ++ [TYPE])

/-- The alias `ntuple_t<TYPE, N>` (lines 30-31): `ntuple<TYPE, N>::type` with the pack
`RESULT` empty. -/
def ntuple_t {τ : Type} (TYPE : τ) (N : Nat) : List τ :=
  ntuple TYPE N []

/-- The member `repeat_v<SCALAR, RANK>::tuple` (line 186). -/
def repeat_v.tuple {τ : Type} (SCALAR : τ) (RANK : Nat) : List τ :=
  ntuple_t SCALAR RANK

/-- The function `repeat_v<SCALAR, RANK>::with(v)` (lines 187-191): `foreach<tuple,
visitors::repeat>::visit(std::make_index_sequence<RANK>{}, v)`. The parameter `v` is declared
`SCALAR const`, a read-only lvalue, so the call goes to the read-only entry point. -/
def repeat_v.with {τ V : Type} (c : Conversion τ V) (SCALAR : τ) (RANK : Nat) (v : V) :
    Option (List V) :=
  foreach.visit_const c (repeat_v.tuple SCALAR RANK) visitors.repeat
    (repeat_v.tuple SCALAR RANK) (List.range RANK) v

/-! ## Instrumentation -/

/-- The functor `F` with a counter of the calls of `value` added to the accumulator: each call
of `value` adds one. It serves to count how often `aggregate` applies the combine. -/
def AggregateFunctor.counting {α β : Type} (F : AggregateFunctor α β) :
    AggregateFunctor (α × Nat) β where
  initial_value := (F.initial_value, 0)
  value acc x := (F.value acc.1 x, acc.2 + 1)

/-! ## Lemmas on aggregate -/

theorem size_minus_one_eq_mod (n : Nat) (h : n < 2 ^ 64) :
    size_minus_one n = (n + 2 ^ 64 - 1) % 2 ^ 64 := by
  unfold size_minus_one SIZE_MAX
  split
  · subst n; norm_num
  · omega

/-- Started at an index inside the tuple, `iterate::get` combines the slots from that index
down to slot 0. -/
theorem aggregate_iterate_get_eq {α β : Type} (F : AggregateFunctor α β) (values : List β) :
    ∀ (INDEX : Nat) (result : α), INDEX < values.length →
      aggregate.iterate.get F INDEX result values
        = some (List.foldl F.value result (values.take (INDEX + 1)).reverse) := by
  intro INDEX
  induction INDEX with
  | zero =>
    intro result h
    cases values with
    | nil => simp at h
    | cons v vs => simp [aggregate.iterate.get, std_get]
  | succ n ih =>
    intro result h
    have hv : values[n + 1]? = some values[n + 1] := List.getElem?_eq_getElem h
    have htake : values.take (n + 1 + 1) = values.take (n + 1) ++ [values[n + 1]] := by
      rw [List.take_succ, hv]; rfl
    simp only [aggregate.iterate.get, std_get, hv, Option.bind_eq_bind, Option.some_bind]
    rw [ih _ (by omega), htake]
    simp only [List.reverse_append, List.reverse_singleton, List.singleton_append,
      List.foldl_cons]

/-! ## C1 -/

/-- Claim C1, as stated, fails: with `combine(a, x) = 10 * a + x` and initial value 0 the
tuple (1, 2, 3) is folded to 321, whereas the left fold over ascending indices is 123. -/
theorem aggregate_from_not_ascending :
    aggregate.from (AggregateFunctor.mk 0 (fun a x => 10 * a + x)) [1, 2, 3] = some 321 ∧
    aggregate.from (AggregateFunctor.mk 0 (fun a x => 10 * a + x)) [1, 2, 3]
      ≠ some (List.foldl (fun a x => 10 * a + x) 0 [1, 2, 3]) := by
  decide

/-- Claim C1, amended: for every aggregate functor and every sequence of length n >= 1,
`aggregate::from` returns the fold over descending indices,
combine(...combine(combine(initial, slot_{n-1}), slot_{n-2})..., slot_0). -/
theorem aggregate_from_descending_fold {α β : Type} (F : AggregateFunctor α β)
    (values : List β) (h : 1 ≤ values.length) :
    aggregate.from F values = some (List.foldl F.value F.initial_value values.reverse) := by
  have hne : values.length ≠ 0 := by omega
  unfold aggregate.from size_minus_one
  rw [if_neg hne, aggregate_iterate_get_eq F values _ _ (by omega)]
  have : values.length - 1 + 1 = values.length := by omega
  rw [this, List.take_length]

theorem aggregate_from_descending_fold_witness :
    1 ≤ [5, 9, 2].length ∧
    aggregate.from (AggregateFunctor.mk 0 (fun a x => 10 * a + x)) [5, 9, 2]
      = some (List.foldl (fun a x => 10 * a + x) 0 [5, 9, 2].reverse) :=
  ⟨by decide, aggregate_from_descending_fold _ [5, 9, 2] (by decide)⟩

/-! ## Lemmas on extract -/

/-- With every index in range, the read-only `enumerate::get` returns the slots read so far
followed by the selected slots, in the order of the index list. -/
theorem extract_enumerate_get_eq {V : Type} (input : List V) :
    ∀ (INDEXES : List Nat) (INDEX0 : Nat) (args : List V),
      (∀ i ∈ INDEX0 :: INDEXES, i < input.length) →
      ∃ sel : List V, extract.enumerate.get input INDEX0 INDEXES args = some (args ++ sel) ∧
        sel.length = INDEXES.length + 1 ∧
        ∀ j i : Nat, (INDEX0 :: INDEXES)[j]? = some i → sel[j]? = input[i]? := by
  intro INDEXES
  induction INDEXES with
  | nil =>
    intro INDEX0 args h
    have h0 : INDEX0 < input.length := h INDEX0 (by simp)
    refine ⟨[input[INDEX0]], ?_, by simp, ?_⟩
    · simp [extract.enumerate.get, std_get, List.getElem?_eq_getElem h0]
    · intro j i hj
      cases j with
      | zero =>
        simp at hj
        subst hj
        simp [List.getElem?_eq_getElem h0]
      | succ j => simp at hj
  | cons INDEX1 INDEXES ih =>
    intro INDEX0 args h
    have h0 : INDEX0 < input.length := h INDEX0 (by simp)
    obtain ⟨sel, hsel, hlen, hslots⟩ := ih INDEX1 (args ++ [input[INDEX0]])
      (fun i hi => h i (List.mem_cons_of_mem _ hi))
    refine ⟨input[INDEX0] :: sel, ?_, by simp [hlen], ?_⟩
    · simp [extract.enumerate.get, std_get, List.getElem?_eq_getElem h0, hsel]
    · intro j i hj
      cases j with
      | zero =>
        simp at hj
        subst hj
        simp [List.getElem?_eq_getElem h0]
      | succ j =>
        simp only [List.getElem?_cons_succ] at hj ⊢
        exact hslots j i hj

/-- With every index in range, the mutable `enumerate::get` returns the references taken so far
followed by references to the selected slots, in the order of the index list. -/
theorem extract_enumerate_get_mut_eq {V : Type} (input : List V) :
    ∀ (INDEXES : List Nat) (INDEX0 : Nat) (args : List SlotRef),
      (∀ i ∈ INDEX0 :: INDEXES, i < input.length) →
      ∃ sel : List SlotRef,
        extract.enumerate.get_mut input INDEX0 INDEXES args = some (args ++ sel) ∧
        sel.length = INDEXES.length + 1 ∧
        ∀ j i : Nat, (INDEX0 :: INDEXES)[j]? = some i → sel[j]? = some (SlotRef.mk i) := by
  intro INDEXES
  induction INDEXES with
  | nil =>
    intro INDEX0 args h
    have h0 : INDEX0 < input.length := h INDEX0 (by simp)
    refine ⟨[SlotRef.mk INDEX0], ?_, by simp, ?_⟩
    · simp [extract.enumerate.get_mut, std_get_ref, h0]
    · intro j i hj
      cases j with
      | zero =>
        simp at hj
        subst hj
        simp
      | succ j => simp at hj
  | cons INDEX1 INDEXES ih =>
    intro INDEX0 args h
    have h0 : INDEX0 < input.length := h INDEX0 (by simp)
    obtain ⟨sel, hsel, hlen, hslots⟩ := ih INDEX1 (args ++ [SlotRef.mk INDEX0])
      (fun i hi => h i (List.mem_cons_of_mem _ hi))
    refine ⟨SlotRef.mk INDEX0 :: sel, ?_, by simp [hlen], ?_⟩
    · simp [extract.enumerate.get_mut, std_get_ref, h0, hsel]
    · intro j i hj
      cases j with
      | zero =>
        simp at hj
        subst hj
        simp
      | succ j =>
        simp only [List.getElem?_cons_succ] at hj ⊢
        exact hslots j i hj

/-- An index outside the source makes the read-only `enumerate::get` ill-formed. -/
theorem extract_enumerate_get_none {V : Type} (input : List V) :
    ∀ (INDEXES : List Nat) (INDEX0 : Nat) (args : List V),
      (∃ i ∈ INDEX0 :: INDEXES, input.length ≤ i) →
      extract.enumerate.get input INDEX0 INDEXES args = none := by
  intro INDEXES
  induction INDEXES with
  | nil =>
    intro INDEX0 args h
    obtain ⟨i, hi, hle⟩ := h
    simp at hi
    subst hi
    simp [extract.enumerate.get, std_get, List.getElem?_eq_none hle]
  | cons INDEX1 INDEXES ih =>
    intro INDEX0 args h
    obtain ⟨i, hi, hle⟩ := h
    rcases List.mem_cons.mp hi with rfl | hi
    · simp [extract.enumerate.get, std_get, List.getElem?_eq_none hle]
    · cases hv : std_get INDEX0 input with
      | none => simp [extract.enumerate.get, hv]
      | some v => simp [extract.enumerate.get, hv, ih INDEX1 _ ⟨i, hi, hle⟩]

/-- An index outside the source makes the mutable `enumerate::get` ill-formed. -/
theorem extract_enumerate_get_mut_none {V : Type} (input : List V) :
    ∀ (INDEXES : List Nat) (INDEX0 : Nat) (args : List SlotRef),
      (∃ i ∈ INDEX0 :: INDEXES, input.length ≤ i) →
      extract.enumerate.get_mut input INDEX0 INDEXES args = none := by
  intro INDEXES
  induction INDEXES with
  | nil =>
    intro INDEX0 args h
    obtain ⟨i, hi, hle⟩ := h
    simp at hi
    subst hi
    simp [extract.enumerate.get_mut, std_get_ref, Nat.not_lt.mpr hle]
  | cons INDEX1 INDEXES ih =>
    intro INDEX0 args h
    obtain ⟨i, hi, hle⟩ := h
    rcases List.mem_cons.mp hi with rfl | hi
    · simp [extract.enumerate.get_mut, std_get_ref, Nat.not_lt.mpr hle]
    · cases hv : std_get_ref INDEX0 input with
      | none => simp [extract.enumerate.get_mut, hv]
      | some v => simp [extract.enumerate.get_mut, hv, ih INDEX1 _ ⟨i, hi, hle⟩]

/-- An index outside the source makes `enumerate::type` ill-formed. -/
theorem extract_enumerate_type_none (TYPES : List Ty) :
    ∀ (INDEXES : List Nat) (INDEX0 : Nat) (OUTPUT : Ty),
      (∃ i ∈ INDEX0 :: INDEXES, TYPES.length ≤ i) →
      extract.enumerate.type TYPES OUTPUT INDEX0 INDEXES = none := by
  intro INDEXES
  induction INDEXES with
  | nil =>
    intro INDEX0 OUTPUT h
    obtain ⟨i, hi, hle⟩ := h
    simp at hi
    subst hi
    simp [extract.enumerate.type, tuple_element, List.getElem?_eq_none hle]
  | cons INDEX1 INDEXES ih =>
    intro INDEX0 OUTPUT h
    obtain ⟨i, hi, hle⟩ := h
    rcases List.mem_cons.mp hi with rfl | hi
    · simp [extract.enumerate.type, tuple_element, List.getElem?_eq_none hle]
    · cases hv : tuple_element INDEX0 TYPES with
      | none => simp [extract.enumerate.type, hv]
      | some item =>
        cases ho : append item OUTPUT with
        | none => simp [extract.enumerate.type, hv, ho]
        | some output => simp [extract.enumerate.type, hv, ho, ih INDEX1 _ ⟨i, hi, hle⟩]

/-- Where no selected slot is itself a tuple, `enumerate::type` appends the types of the
selected slots, one per index and in the order of the index list. -/
theorem extract_enumerate_type_eq (TYPES : List Ty) :
    ∀ (INDEXES : List Nat) (INDEX0 : Nat) (OUT : List Ty),
      (∀ i ∈ INDEX0 :: INDEXES, ∃ name, TYPES[i]? = some (Ty.elem name)) →
      ∃ sel : List Ty,
        extract.enumerate.type TYPES (Ty.tuple OUT) INDEX0 INDEXES = some (Ty.tuple (OUT ++ sel)) ∧
        sel.length = INDEXES.length + 1 ∧
        ∀ j i : Nat, (INDEX0 :: INDEXES)[j]? = some i → sel[j]? = TYPES[i]? := by
  intro INDEXES
  induction INDEXES with
  | nil =>
    intro INDEX0 OUT h
    obtain ⟨name, h0⟩ := h INDEX0 (by simp)
    refine ⟨[Ty.elem name], ?_, by simp, ?_⟩
    · simp [extract.enumerate.type, tuple_element, h0, append]
    · intro j i hj
      cases j with
      | zero =>
        simp at hj
        subst hj
        simp [h0]
      | succ j => simp at hj
  | cons INDEX1 INDEXES ih =>
    intro INDEX0 OUT h
    obtain ⟨name, h0⟩ := h INDEX0 (by simp)
    obtain ⟨sel, hsel, hlen, hslots⟩ := ih INDEX1 (OUT ++ [Ty.elem name])
      (fun i hi => h i (List.mem_cons_of_mem _ hi))
    refine ⟨Ty.elem name :: sel, ?_, by simp [hlen], ?_⟩
    · simp [extract.enumerate.type, tuple_element, h0, append, hsel]
    · intro j i hj
      cases j with
      | zero =>
        simp at hj
        subst hj
        simp [h0]
      | succ j =>
        simp only [List.getElem?_cons_succ] at hj ⊢
        exact hslots j i hj

/-- Assigning through a reference to slot `i` changes slot `i` of the source and nothing else. -/
theorem slotref_write_spec {V : Type} (input : List V) (i : Nat) (hi : i < input.length) (v : V) :
    ((SlotRef.mk i).write input v).length = input.length ∧
    (SlotRef.mk i).read ((SlotRef.mk i).write input v) = some v ∧
    ((SlotRef.mk i).write input v)[i]? = some v ∧
    ∀ m : Nat, m ≠ i → ((SlotRef.mk i).write input v)[m]? = input[m]? := by
  refine ⟨by simp [SlotRef.write], ?_, ?_, ?_⟩
  · simp [SlotRef.write, SlotRef.read, List.getElem?_set_self hi]
  · simp [SlotRef.write, List.getElem?_set_self hi]
  · intro m hm
    simp [SlotRef.write, List.getElem?_set_ne (Ne.symm hm)]

/-! ## C2 -/

/-- Claim C2: for a source of length n and an index list of length k > 1 with every index
below n (repeats and any order allowed), the read-only accessor of `extract` returns a sequence
of length k whose slot j is source slot i_j; with the index list [0, 0] both result slots are
source slot 0. -/
theorem extract_call_selects {V : Type} (input : List V) (INDEX : List Nat)
    (hk : 1 < INDEX.length) (hin : ∀ i ∈ INDEX, i < input.length) :
    ∃ result : List V, extract.call input INDEX = some (Extracted.sequence result) ∧
      result.length = INDEX.length ∧
      (∀ (j : Nat) (hj : j < INDEX.length), result[j]? = input[INDEX[j]]?) ∧
      (INDEX = [0, 0] → ∀ v : V, input[0]? = some v → result = [v, v]) := by
  match INDEX, hk, hin with
  | INDEX0 :: INDEX1 :: INDEXES, _, hin =>
    obtain ⟨sel, hsel, hlen, hslots⟩ :=
      extract_enumerate_get_eq input (INDEX1 :: INDEXES) INDEX0 [] hin
    have hall : ∀ (j : Nat) (hj : j < (INDEX0 :: INDEX1 :: INDEXES).length),
        sel[j]? = input[(INDEX0 :: INDEX1 :: INDEXES)[j]]? :=
      fun j hj => hslots j _ (List.getElem?_eq_getElem hj)
    refine ⟨sel, ?_, by simp [hlen], hall, ?_⟩
    · simp [extract.call, hsel]
    · intro hI v hv
      obtain ⟨h0, h1, h2⟩ : INDEX0 = 0 ∧ INDEX1 = 0 ∧ INDEXES = [] := by simpa using hI
      subst h0 h1 h2
      have e0 := hall 0 (by simp)
      have e1 := hall 1 (by simp)
      simp only [List.getElem_cons_zero, List.getElem_cons_succ, hv] at e0 e1
      have hl2 : sel.length = 2 := by simp [hlen]
      match sel, hl2, e0, e1 with
      | [a, b], _, e0, e1 =>
        simp at e0 e1
        rw [e0, e1]

theorem extract_call_selects_witness :
    1 < [2, 0, 0].length ∧ (∀ i ∈ [2, 0, 0], i < [10, 20, 30].length) ∧
    ∃ result : List Nat, extract.call [10, 20, 30] [2, 0, 0] = some (Extracted.sequence result) ∧
      result.length = [2, 0, 0].length ∧
      (∀ (j : Nat) (hj : j < [2, 0, 0].length), result[j]? = [10, 20, 30][[2, 0, 0][j]]?) ∧
      ([2, 0, 0] = [0, 0] → ∀ v : Nat, [10, 20, 30][0]? = some v → result = [v, v]) :=
  ⟨by decide, by decide, extract_call_selects [10, 20, 30] [2, 0, 0] (by decide) (by decide)⟩

/-! ## C3 -/

/-- Claim C3 at the source `std::tuple<int, std::tuple<char, bool>>` with the index list
[0, 1]: `extract::type` is `std::tuple<int, char, bool>`, a sequence of three slots, and not
the two-slot `std::tuple<int, std::tuple<char, bool>>` of the selected slots' types, because
`enumerate` builds its output with `append`, which merges an item that is itself a tuple; the
tuple that the accessor returns there has the two-slot type (decay leaves the unqualified
types `int` and `std::tuple<char, bool>` as they are). -/
theorem extract_type_flattens_tuple_slot :
    extract.type (Ty.tuple [Ty.elem "int", Ty.tuple [Ty.elem "char", Ty.elem "bool"]]) [0, 1]
      = some (Ty.tuple [Ty.elem "int", Ty.elem "char", Ty.elem "bool"]) ∧
    extract.type (Ty.tuple [Ty.elem "int", Ty.tuple [Ty.elem "char", Ty.elem "bool"]]) [0, 1]
      ≠ some (Ty.tuple [Ty.elem "int", Ty.tuple [Ty.elem "char", Ty.elem "bool"]]) ∧
    (∀ decay : Ty → Ty, decay (Ty.elem "int") = Ty.elem "int" →
      decay (Ty.tuple [Ty.elem "char", Ty.elem "bool"])
        = Ty.tuple [Ty.elem "char", Ty.elem "bool"] →
      extract.enumerate.get_type decay
          [Ty.elem "int", Ty.tuple [Ty.elem "char", Ty.elem "bool"]] 0 [1] []
        = some (Ty.tuple [Ty.elem "int", Ty.tuple [Ty.elem "char", Ty.elem "bool"]])) := by
  refine ⟨rfl, ?_, ?_⟩
  · simp [extract.type, extract.enumerate.type, tuple_element, append]
  · intro decay h1 h2
    simp [extract.enumerate.get_type, tuple_element, h1, h2]

/-- Where no selected slot is itself a tuple, `extract::type` for an index list of length
k > 1 is the sequence of the k selected slots' types. -/
theorem extract_type_of_elem_slots (TYPES : List Ty) (INDEX : List Nat)
    (hk : 1 < INDEX.length) (hel : ∀ i ∈ INDEX, ∃ name, TYPES[i]? = some (Ty.elem name)) :
    ∃ result : List Ty, extract.type (Ty.tuple TYPES) INDEX = some (Ty.tuple result) ∧
      result.length = INDEX.length ∧
      ∀ (j : Nat) (hj : j < INDEX.length), result[j]? = TYPES[INDEX[j]]? := by
  match INDEX, hk, hel with
  | INDEX0 :: INDEX1 :: INDEXES, _, hel =>
    obtain ⟨sel, hsel, hlen, hslots⟩ :=
      extract_enumerate_type_eq TYPES (INDEX1 :: INDEXES) INDEX0 [] hel
    refine ⟨sel, ?_, by simp [hlen], fun j hj => hslots j _ (List.getElem?_eq_getElem hj)⟩
    simpa [extract.type] using hsel

/-! ## C4 -/

/-- Claim C4: for a source of length n and the single-element index list [i] with i < n,
`extract::type` is the type of source slot i itself and the accessors return the element at
position i itself (the read-only one its value, the mutable one a reference to it), never a
sequence of length 1. -/
theorem extract_single_index {V : Type} (TYPES : List Ty) (input : List V) (i : Nat)
    (hlen : input.length = TYPES.length) (hi : i < TYPES.length) :
    extract.type (Ty.tuple TYPES) [i] = TYPES[i]? ∧
    extract.type (Ty.tuple TYPES) [i] = some TYPES[i] ∧
    extract.type (Ty.tuple TYPES) [i] ≠ some (Ty.tuple [TYPES[i]]) ∧
    extract.call input [i] = some (Extracted.element (input[i])) ∧
    extract.call_mut input [i] = some (Extracted.element (SlotRef.mk i)) ∧
    (∀ slots : List V, extract.call input [i] ≠ some (Extracted.sequence slots)) ∧
    (∀ slots : List SlotRef, extract.call_mut input [i] ≠ some (Extracted.sequence slots)) := by
  have hi2 : i < input.length := by omega
  have ht : extract.type (Ty.tuple TYPES) [i] = some TYPES[i] := by
    simp [extract.type, tuple_element, List.getElem?_eq_getElem hi]
  have hc : extract.call input [i] = some (Extracted.element (input[i])) := by
    simp [extract.call, std_get, List.getElem?_eq_getElem hi2]
  have hm : extract.call_mut input [i] = some (Extracted.element (SlotRef.mk i)) := by
    simp [extract.call_mut, std_get_ref, hi2]
  refine ⟨?_, ht, ?_, hc, hm, ?_, ?_⟩
  · rw [ht, List.getElem?_eq_getElem hi]
  · rw [ht]
    intro h
    have hs := congrArg sizeOf (Option.some.inj h)
    simp at hs
    omega
  · intro slots
    rw [hc]
    simp
  · intro slots
    rw [hm]
    simp

theorem extract_single_index_witness :
    [10, 20, 30].length = [Ty.elem "int", Ty.elem "char", Ty.elem "bool"].length ∧
    1 < [Ty.elem "int", Ty.elem "char", Ty.elem "bool"].length ∧
    extract.type (Ty.tuple [Ty.elem "int", Ty.elem "char", Ty.elem "bool"]) [1]
      = some (Ty.elem "char") ∧
    extract.call [10, 20, 30] [1] = some (Extracted.element 20) :=
  ⟨by decide, by decide,
   (extract_single_index [Ty.elem "int", Ty.elem "char", Ty.elem "bool"] [10, 20, 30] 1
      (by decide) (by decide)).2.1,
   (extract_single_index [Ty.elem "int", Ty.elem "char", Ty.elem "bool"] [10, 20, 30] 1
      (by decide) (by decide)).2.2.2.1⟩

/-! ## C5 -/

/-- Claim C5: for a source of length n and an index list that contains some index >= n,
extraction is rejected: neither `extract::type` nor the read-only accessor nor the mutable
accessor yields a result. -/
theorem extract_rejects_out_of_range {V : Type} (TYPES : List Ty) (input : List V)
    (INDEX : List Nat) (hlen : input.length = TYPES.length)
    (hbad : ∃ i ∈ INDEX, TYPES.length ≤ i) :
    extract.type (Ty.tuple TYPES) INDEX = none ∧
    extract.call input INDEX = none ∧
    extract.call_mut input INDEX = none := by
  have hbad2 : ∃ i ∈ INDEX, input.length ≤ i := by rw [hlen]; exact hbad
  match INDEX, hbad, hbad2 with
  | [], hbad, _ => simp at hbad
  | [INDEX0], hbad, hbad2 =>
    obtain ⟨i, hi, hle⟩ := hbad
    obtain ⟨i2, hi2, hle2⟩ := hbad2
    simp at hi hi2
    subst hi hi2
    refine ⟨?_, ?_, ?_⟩
    · simp [extract.type, tuple_element, List.getElem?_eq_none hle]
    · simp [extract.call, std_get, List.getElem?_eq_none hle2]
    · simp [extract.call_mut, std_get_ref, Nat.not_lt.mpr hle2]
  | INDEX0 :: INDEX1 :: INDEXES, hbad, hbad2 =>
    refine ⟨?_, ?_, ?_⟩
    · simp [extract.type, extract_enumerate_type_none TYPES _ _ _ hbad]
    · simp [extract.call, extract_enumerate_get_none input _ _ _ hbad2]
    · simp [extract.call_mut, extract_enumerate_get_mut_none input _ _ _ hbad2]

theorem extract_rejects_out_of_range_witness :
    [10, 20].length = [Ty.elem "int", Ty.elem "char"].length ∧
    (∃ i ∈ [0, 2, 1], [Ty.elem "int", Ty.elem "char"].length ≤ i) ∧
    extract.type (Ty.tuple [Ty.elem "int", Ty.elem "char"]) [0, 2, 1] = none ∧
    extract.call [10, 20] [0, 2, 1] = none ∧
    extract.call_mut [10, 20] [0, 2, 1] = none :=
  ⟨by decide, by decide,
   extract_rejects_out_of_range [Ty.elem "int", Ty.elem "char"] [10, 20] [0, 2, 1]
     (by decide) (by decide)⟩

/-! ## C6 -/

/-- Claim C6: for a source and an in-range index list of length k >= 1, the mutable accessor
of `extract` yields live aliases: the result has one reference per index (the bare reference
when k = 1), and writing v through result slot j sets source slot IndexList[j] to v, keeps the
source's length and leaves every other source slot unchanged, so that a subsequent read of
the source observes v. -/
theorem extract_call_mut_aliases {V : Type} (input : List V) (INDEX : List Nat)
    (hk : 1 ≤ INDEX.length) (hin : ∀ i ∈ INDEX, i < input.length) :
    ∃ res : Extracted SlotRef, extract.call_mut input INDEX = some res ∧
      res.slots.length = INDEX.length ∧
      (INDEX.length = 1 → ∃ r, res = Extracted.element r) ∧
      (1 < INDEX.length → ∃ rs, res = Extracted.sequence rs) ∧
      ∀ (j : Nat) (hj : j < INDEX.length), ∃ r : SlotRef, res.slots[j]? = some r ∧
        ∀ v : V, (r.write input v).length = input.length ∧
          r.read (r.write input v) = some v ∧
          (r.write input v)[INDEX[j]]? = some v ∧
          ∀ m : Nat, m ≠ INDEX[j] → (r.write input v)[m]? = input[m]? := by
  match INDEX, hk, hin with
  | [INDEX0], _, hin =>
    have h0 : INDEX0 < input.length := hin INDEX0 (by simp)
    refine ⟨Extracted.element (SlotRef.mk INDEX0), ?_, by simp [Extracted.slots],
      fun _ => ⟨_, rfl⟩, fun h => absurd h (by simp), ?_⟩
    · simp [extract.call_mut, std_get_ref, h0]
    · intro j hj
      have hj0 : j = 0 := by simpa using hj
      subst hj0
      exact ⟨SlotRef.mk INDEX0, by simp [Extracted.slots],
        fun v => slotref_write_spec input INDEX0 h0 v⟩
  | INDEX0 :: INDEX1 :: INDEXES, _, hin =>
    obtain ⟨sel, hsel, hlen, hslots⟩ :=
      extract_enumerate_get_mut_eq input (INDEX1 :: INDEXES) INDEX0 [] hin
    refine ⟨Extracted.sequence sel, ?_, by simp [Extracted.slots, hlen],
      fun h => absurd h (by simp), fun _ => ⟨_, rfl⟩, ?_⟩
    · simp [extract.call_mut, hsel]
    · intro j hj
      refine ⟨SlotRef.mk (INDEX0 :: INDEX1 :: INDEXES)[j], ?_, fun v => ?_⟩
      · exact hslots j _ (List.getElem?_eq_getElem hj)
      · exact slotref_write_spec input _ (hin _ (List.getElem_mem hj)) v

theorem extract_call_mut_aliases_witness :
    1 ≤ [2, 0].length ∧ (∀ i ∈ [2, 0], i < [10, 20, 30].length) ∧
    ∃ res : Extracted SlotRef, extract.call_mut [10, 20, 30] [2, 0] = some res ∧
      res.slots.length = [2, 0].length ∧
      ([2, 0].length = 1 → ∃ r, res = Extracted.element r) ∧
      (1 < [2, 0].length → ∃ rs, res = Extracted.sequence rs) ∧
      ∀ (j : Nat) (hj : j < [2, 0].length), ∃ r : SlotRef, res.slots[j]? = some r ∧
        ∀ v : Nat, (r.write [10, 20, 30] v).length = [10, 20, 30].length ∧
          r.read (r.write [10, 20, 30] v) = some v ∧
          (r.write [10, 20, 30] v)[[2, 0][j]]? = some v ∧
          ∀ m : Nat, m ≠ [2, 0][j] → (r.write [10, 20, 30] v)[m]? = [10, 20, 30][m]? :=
  ⟨by decide, by decide, extract_call_mut_aliases [10, 20, 30] [2, 0] (by decide) (by decide)⟩

/-! ## C7 -/

/-- Claim C7, as stated, fails at length 1: for the source (5) the identity index list is [0],
the single-index specialisation applies, and the result is the bare element 5, not a sequence
equal to the source. -/
theorem extract_identity_singleton_not_sequence :
    extract.call [5] (List.range [5].length) = some (Extracted.element 5) ∧
    extract.call [5] (List.range [5].length) ≠ some (Extracted.sequence [5]) := by
  decide

/-- Claim C7, amended: for every length n >= 2 and every source sequence of length n,
`extract` with the identity index list [0, 1, ..., n-1] returns a sequence equal to the
source. -/
theorem extract_identity {V : Type} (input : List V) (hn : 2 ≤ input.length) :
    extract.call input (List.range input.length) = some (Extracted.sequence input) := by
  have key : ∀ INDEX : List Nat, INDEX = List.range input.length →
      extract.call input INDEX = some (Extracted.sequence input) := by
    intro INDEX hI
    have hl : INDEX.length = input.length := by rw [hI, List.length_range]
    have hin : ∀ i ∈ INDEX, i < input.length := by
      intro i hi
      rw [hI] at hi
      exact List.mem_range.mp hi
    match INDEX, hI, hl, hin with
    | [], _, hl, _ => simp at hl; omega
    | [_], _, hl, _ => simp at hl; omega
    | INDEX0 :: INDEX1 :: INDEXES, hI, hl, hin =>
      obtain ⟨sel, hsel, hlen, hslots⟩ :=
        extract_enumerate_get_eq input (INDEX1 :: INDEXES) INDEX0 [] hin
      have hsl : sel.length = input.length := by
        rw [hlen, ← hl]; simp
      have hsel_eq : sel = input := by
        apply List.ext_getElem?
        intro m
        by_cases hm : m < input.length
        · exact hslots m m (by rw [hI]; exact List.getElem?_range hm)
        · rw [List.getElem?_eq_none (by omega), List.getElem?_eq_none (by omega)]
      simp [extract.call, hsel, hsel_eq]
  exact key _ rfl

theorem extract_identity_witness :
    2 ≤ [10, 20, 30].length ∧
    extract.call [10, 20, 30] (List.range [10, 20, 30].length)
      = some (Extracted.sequence [10, 20, 30]) :=
  ⟨by decide, extract_identity [10, 20, 30] (by decide)⟩

/-! ## Lemmas on foreach -/

/-- Where every instantiation is well-formed the pack expansion lists the visitor's values in
the order of the index sequence. -/
theorem foreach_expand_eq_map {V : Type} (visit : Nat → Option V) (g : Nat → V) :
    ∀ INDEX : List Nat, (∀ i ∈ INDEX, visit i = some (g i)) →
      foreach.expand visit INDEX = some (INDEX.map g) := by
  intro INDEX
  induction INDEX with
  | nil => intro _; rfl
  | cons INDEX0 INDEXES ih =>
    intro h
    have h0 := h INDEX0 (by simp)
    have hl := ih (fun b hb => h b (List.mem_cons_of_mem _ hb))
    simp [foreach.expand, h0, hl]

theorem range_map_getD {V : Type} (l : List V) (d : V) :
    (List.range l.length).map (fun i => l.getD i d) = l := by
  apply List.ext_getElem?
  intro m
  by_cases hm : m < l.length
  · simp [List.getElem?_map, List.getElem?_range hm, List.getElem?_eq_getElem hm,
      List.getD_eq_getElem?_getD]
  · rw [List.getElem?_eq_none (by simpa using hm), List.getElem?_eq_none (by omega)]

/-- Conversion slot by slot leaves a list of values unchanged when each value already is a
value of its slot's type. -/
theorem zipWith_cast_eq {τ V : Type} (c : Conversion τ V) :
    ∀ (R : List τ) (vals : List V), vals.length = R.length →
      (∀ (i : Nat) (T : τ) (v : V), R[i]? = some T → vals[i]? = some v → c.inhabits T v) →
      List.zipWith c.cast R vals = vals := by
  intro R
  induction R with
  | nil =>
    intro vals hl _
    cases vals with
    | nil => rfl
    | cons v vs => simp at hl
  | cons T R ih =>
    intro vals hl h
    cases vals with
    | nil => simp at hl
    | cons v vs =>
      have h0 : c.cast T v = v := h 0 T v (by simp) (by simp)
      have hrest := ih vs (by simpa using hl)
        (fun i T2 v2 hT hv => h (i + 1) T2 v2 (by simpa using hT) (by simpa using hv))
      simp [List.zipWith, h0, hrest]

/-- The initialisation `RESULT_TUPLE{ vals... }` keeps the values as they are when there is
one per slot and each already is a value of its slot's type. -/
theorem foreach_construct_eq {τ V : Type} (c : Conversion τ V) (R : List τ) (vals : List V)
    (hl : vals.length = R.length)
    (h : ∀ (i : Nat) (T : τ) (v : V), R[i]? = some T → vals[i]? = some v → c.inhabits T v) :
    foreach.construct c R vals = some vals := by
  cases vals with
  | nil =>
    have hR : R = [] := List.length_eq_zero.mp (by simpa using hl.symm)
    simp [foreach.construct, hR]
  | cons v vs =>
    simp only [foreach.construct, hl, if_true]
    rw [zipWith_cast_eq c R (v :: vs) hl h]

/-- With one initialiser per slot, `RESULT_TUPLE{ vals... }` converts each to its slot's type. -/
theorem foreach_construct_eq_zipWith {τ V : Type} (c : Conversion τ V) (R : List τ)
    (vals : List V) (hl : vals.length = R.length) :
    foreach.construct c R vals = some (List.zipWith c.cast R vals) := by
  cases vals with
  | nil =>
    have hR : R = [] := List.length_eq_zero.mp (by simpa using hl.symm)
    simp [foreach.construct, hR]
  | cons v vs => simp only [foreach.construct, hl, if_true]

/-- Every parameter binds a mutable argument. -/
theorem param_binds_mutable (p : Param) : p.binds false = true := by
  cases p <;> rfl

theorem params_bind_mutable (ps : List Param) : ps.all (fun p => p.binds false) = true := by
  rw [List.all_eq_true]
  exact fun p _ => param_binds_mutable p

/-- Through its mutable entry point and over the index range [0, N), for a result type of N
slots, `foreach::visit` returns the sequence of length N whose slot i is the visitor's value
for index i, converted to the type of result slot i. -/
theorem foreach_visit_eq {τ V A : Type} (c : Conversion τ V) (T : List τ)
    (VIS : Visitor τ V A) (R : List τ) (N : Nat) (args : A) (g : Nat → V)
    (hv : ∀ i : Nat, i < N → VIS.visit c i T args = some (g i)) (hR : R.length = N) :
    ∃ result : List V, foreach.visit c T VIS R (List.range N) args = some result ∧
      result.length = N ∧
      ∀ (i : Nat) (t : τ), R[i]? = some t → result[i]? = some (c.cast t (g i)) := by
  have hexp := foreach_expand_eq_map (fun i => VIS.visit c i T args) g (List.range N)
    (fun i hi => hv i (List.mem_range.mp hi))
  have hl : ((List.range N).map g).length = R.length := by simp [hR]
  refine ⟨List.zipWith c.cast R ((List.range N).map g), ?_, by simp [hR], ?_⟩
  · simp only [foreach.visit, params_bind_mutable, if_true, hexp, Option.bind_eq_bind,
      Option.some_bind]
    exact foreach_construct_eq_zipWith c R _ hl
  · intro i t ht
    have hi : i < N := by
      rw [← hR]
      by_contra hge
      rw [List.getElem?_eq_none (by omega)] at ht
      exact absurd ht (by simp)
    simp [List.getElem?_zipWith, ht, List.getElem?_range hi]

/-- For a visitor all of whose parameters bind read-only arguments, the two entry points of
`foreach` return the same. -/
theorem foreach_visit_const_eq_visit {τ V A : Type} (c : Conversion τ V) (T : List τ)
    (VIS : Visitor τ V A) (R : List τ) (INDEX : List Nat) (args : A)
    (hb : VIS.params.all (fun p => p.binds true) = true) :
    foreach.visit_const c T VIS R INDEX args = foreach.visit c T VIS R INDEX args := by
  simp only [foreach.visit, foreach.visit_const, hb, params_bind_mutable, if_true]

/-! ## C8 -/

/-- Claim C8, as stated, fails at the get strategy with the source (1, 2) of type
`std::tuple<int, int>` over the index range [0, 2): the mutable entry point returns (1, 2),
the read-only entry point is ill-formed and returns nothing, because it hands the deduced,
unqualified `ARGS` on to `visitors::get::visit`, whose parameter `TUPLE&` does not bind a
const source. -/
theorem foreach_get_read_only_rejected :
    foreach.visit fixedWidth [32, 32] visitors.get [32, 32] (List.range 2) [1, 2]
      = some [1, 2] ∧
    foreach.visit_const fixedWidth [32, 32] visitors.get [32, 32] (List.range 2) [1, 2]
      = none ∧
    foreach.visit_const fixedWidth [32, 32] visitors.get [32, 32] (List.range 2) [1, 2]
      ≠ foreach.visit fixedWidth [32, 32] visitors.get [32, 32] (List.range 2) [1, 2] := by
  decide

/-- Claim C8, amended: for every target length N, visitor strategy, result type of N slots and
argument list on which the visitor is well-formed for every index below N, `foreach::visit`
over the index range [0, N) returns through its mutable entry point a sequence of length N
whose slot i is the value the visitor produces for index i, converted to the type of result
slot i, in ascending index order; the read-only entry point returns the same value when every
parameter of the visitor is declared `const&` (repeat, merger) and is ill-formed when one is
declared as a mutable reference (get). -/
theorem foreach_visit_entry_points {τ V A : Type} (c : Conversion τ V) (T : List τ)
    (VIS : Visitor τ V A) (R : List τ) (N : Nat) (args : A) (g : Nat → V)
    (hv : ∀ i : Nat, i < N → VIS.visit c i T args = some (g i)) (hR : R.length = N) :
    ∃ result : List V, foreach.visit c T VIS R (List.range N) args = some result ∧
      result.length = N ∧
      (∀ (i : Nat) (t : τ), R[i]? = some t → result[i]? = some (c.cast t (g i))) ∧
      (VIS.params.all (fun p => p.binds true) = true →
        foreach.visit_const c T VIS R (List.range N) args = some result) ∧
      (VIS.params.all (fun p => p.binds true) = false →
        foreach.visit_const c T VIS R (List.range N) args = none) := by
  obtain ⟨result, hres, hlen, hslots⟩ := foreach_visit_eq c T VIS R N args g hv hR
  refine ⟨result, hres, hlen, hslots, ?_, ?_⟩
  · intro hb
    rw [foreach_visit_const_eq_visit c T VIS R _ _ hb]
    exact hres
  · intro hb
    simp [foreach.visit_const, hb]

theorem foreach_visit_entry_points_witness :
    (∀ i : Nat, i < 2 →
      (visitors.repeat : Visitor Nat Nat Nat).visit fixedWidth i [8, 16] 300
        = some ((fun i => if i = 0 then 44 else 300) i)) ∧
    [8, 16].length = 2 ∧
    ∃ result : List Nat,
      foreach.visit fixedWidth [8, 16] visitors.repeat [8, 16] (List.range 2) 300
        = some result ∧
      result.length = 2 ∧
      (∀ (i : Nat) (t : Nat), [8, 16][i]? = some t →
        result[i]? = some (fixedWidth.cast t ((fun i => if i = 0 then 44 else 300) i))) ∧
      ((visitors.repeat : Visitor Nat Nat Nat).params.all (fun p => p.binds true) = true →
        foreach.visit_const fixedWidth [8, 16] visitors.repeat [8, 16] (List.range 2) 300
          = some result) ∧
      ((visitors.repeat : Visitor Nat Nat Nat).params.all (fun p => p.binds true) = false →
        foreach.visit_const fixedWidth [8, 16] visitors.repeat [8, 16] (List.range 2) 300
          = none) :=
  have hv : ∀ i : Nat, i < 2 →
      (visitors.repeat : Visitor Nat Nat Nat).visit fixedWidth i [8, 16] 300
        = some ((fun i => if i = 0 then 44 else 300) i) := by
    intro i hi
    match i, hi with
    | 0, _ => rfl
    | 1, _ => rfl
  ⟨hv, by decide,
   foreach_visit_entry_points fixedWidth [8, 16] visitors.repeat [8, 16] 2 300
     (fun i => if i = 0 then 44 else 300) hv (by decide)⟩

/-! ## C9 -/

/-- Claim C9, as stated, fails where a value of f is not a value of its result slot's type:
with the source (1, 2, 3), f(x) = 100 * x and a result type of three 8-bit slots the result
is (100, 200, 44), its last slot being f(3) = 300 converted to 8 bits, and not
(100, 200, 300). -/
theorem foreach_merger_converts_values :
    foreach.visit fixedWidth [8, 8, 8] visitors.merger [8, 8, 8] (List.range 3)
      ([1, 2, 3], fun x => 100 * x) = some [100, 200, 44] ∧
    foreach.visit fixedWidth [8, 8, 8] visitors.merger [8, 8, 8] (List.range 3)
      ([1, 2, 3], fun x => 100 * x) ≠ some ([1, 2, 3].map (fun x => 100 * x)) := by
  decide

/-- Claim C9, amended: for every source sequence of length N, every unary function f and
every result type of N slots, `foreach` with the merger strategy over the index range [0, N)
returns, through either entry point, the sequence of length N whose slot i is f(source slot i)
converted to the type of result slot i, the same f being applied at every index; where every
f(source slot i) is a value of the type of result slot i, slot i is f(source slot i) itself. -/
theorem foreach_merger_converts {τ V : Type} (c : Conversion τ V) (T R : List τ)
    (src : List V) (f : V → V) (hR : R.length = src.length) :
    ∃ result : List V,
      foreach.visit c T visitors.merger R (List.range src.length) (src, f) = some result ∧
      foreach.visit_const c T visitors.merger R (List.range src.length) (src, f)
        = some result ∧
      result.length = src.length ∧
      (∀ (i : Nat) (r : τ) (v : V), R[i]? = some r → src[i]? = some v →
        result[i]? = some (c.cast r (f v))) ∧
      ((∀ (i : Nat) (r : τ) (v : V), R[i]? = some r → src[i]? = some v →
          c.inhabits r (f v)) →
        result = src.map f ∧
        ∀ (i : Nat) (v : V), src[i]? = some v → result[i]? = some (f v)) := by
  have hexp : foreach.expand (fun i => visitors.merger.visit c i T (src, f))
      (List.range src.length) = some (src.map f) := by
    cases src with
    | nil => rfl
    | cons v0 vs =>
      rw [foreach_expand_eq_map _ (fun i => f ((v0 :: vs).getD i v0))]
      · have hm := congrArg (List.map f) (range_map_getD (v0 :: vs) v0)
        rw [List.map_map] at hm
        exact congrArg some hm
      · intro i hi
        have hi2 : i < (v0 :: vs).length := List.mem_range.mp hi
        simp [visitors.merger, std_get, List.getD_eq_getElem?_getD,
          List.getElem?_eq_getElem hi2]
  have hcon : foreach.construct c R (src.map f) = some (List.zipWith c.cast R (src.map f)) :=
    foreach_construct_eq_zipWith c R (src.map f) (by simp [hR])
  have hvisit : foreach.visit c T visitors.merger R (List.range src.length) (src, f)
      = some (List.zipWith c.cast R (src.map f)) := by
    simp only [foreach.visit, params_bind_mutable, if_true, hexp, Option.bind_eq_bind,
      Option.some_bind, hcon]
  have hslots : ∀ (i : Nat) (r : τ) (v : V), R[i]? = some r → src[i]? = some v →
      (List.zipWith c.cast R (src.map f))[i]? = some (c.cast r (f v)) := by
    intro i r v hr hv
    simp [List.getElem?_zipWith, hr, hv]
  refine ⟨List.zipWith c.cast R (src.map f), hvisit, ?_, by simp [hR], hslots, ?_⟩
  · rw [foreach_visit_const_eq_visit c T visitors.merger R _ _ rfl]
    exact hvisit
  · intro hty
    have heq : List.zipWith c.cast R (src.map f) = src.map f := by
      apply zipWith_cast_eq c R (src.map f) (by simp [hR])
      intro i t w ht hw
      rw [List.getElem?_map] at hw
      cases hs : src[i]? with
      | none => simp [hs] at hw
      | some v =>
        simp [hs] at hw
        rw [← hw]
        exact hty i t v ht hs
    refine ⟨heq, ?_⟩
    intro i v hv
    rw [heq]
    simp [hv]

theorem foreach_merger_converts_witness :
    [8, 8, 8].length = [1, 2, 3].length ∧
    ∃ result : List Nat,
      foreach.visit fixedWidth [8, 8, 8] visitors.merger [8, 8, 8]
        (List.range [1, 2, 3].length) ([1, 2, 3], fun x => 100 * x) = some result ∧
      foreach.visit_const fixedWidth [8, 8, 8] visitors.merger [8, 8, 8]
        (List.range [1, 2, 3].length) ([1, 2, 3], fun x => 100 * x) = some result ∧
      result.length = [1, 2, 3].length ∧
      (∀ (i : Nat) (r : Nat) (v : Nat), [8, 8, 8][i]? = some r → [1, 2, 3][i]? = some v →
        result[i]? = some (fixedWidth.cast r ((fun x => 100 * x) v))) ∧
      ((∀ (i : Nat) (r : Nat) (v : Nat), [8, 8, 8][i]? = some r → [1, 2, 3][i]? = some v →
          fixedWidth.inhabits r ((fun x => 100 * x) v)) →
        result = [1, 2, 3].map (fun x => 100 * x) ∧
        ∀ (i : Nat) (v : Nat), [1, 2, 3][i]? = some v →
          result[i]? = some ((fun x => 100 * x) v)) :=
  ⟨by decide,
   foreach_merger_converts fixedWidth [8, 8, 8] [8, 8, 8] [1, 2, 3] (fun x => 100 * x)
     (by decide)⟩

/-! ## C10 -/

/-- Claim C10, as stated, fails in two ways. With the source (300) of type one 32-bit slot,
the result type equal to the source's and a transform type of one 8-bit slot, the result is
(44), not the source; and through the read-only entry point the get strategy is ill-formed and
returns nothing, even with the source's type as transform and result type. -/
theorem foreach_get_not_identity :
    fixedWidth.inhabits 32 300 ∧
    foreach.visit fixedWidth [8] visitors.get [32] (List.range [300].length) [300]
      = some [44] ∧
    foreach.visit fixedWidth [8] visitors.get [32] (List.range [300].length) [300]
      ≠ some [300] ∧
    foreach.visit_const fixedWidth [32] visitors.get [32] (List.range [300].length) [300]
      = none := by
  refine ⟨rfl, ?_, ?_, ?_⟩ <;> decide

/-- Claim C10, amended: for every source sequence, `foreach` with the get strategy, run through
its mutable entry point over the source's full index range, with a result type whose slot
types are identical to the source's and a transform type of as many slots in which every
source slot is a value of the transform slot's type (as it is when the transform type is the
result type, the default), returns a value equal to the source; through the read-only entry
point the get strategy returns nothing. -/
theorem foreach_get_identity {τ V : Type} (c : Conversion τ V) (T S : List τ) (src : List V)
    (hT : T.length = src.length) (hS : S.length = src.length)
    (htyT : ∀ (i : Nat) (t : τ) (v : V), T[i]? = some t → src[i]? = some v → c.inhabits t v)
    (htyS : ∀ (i : Nat) (t : τ) (v : V), S[i]? = some t → src[i]? = some v → c.inhabits t v) :
    foreach.visit c T visitors.get S (List.range src.length) src = some src ∧
    foreach.visit c S visitors.get S (List.range src.length) src = some src ∧
    foreach.visit_const c T visitors.get S (List.range src.length) src = none := by
  have hexp : ∀ T2 : List τ, T2.length = src.length →
      (∀ (i : Nat) (t : τ) (v : V), T2[i]? = some t → src[i]? = some v → c.inhabits t v) →
      foreach.expand (fun i => visitors.get.visit c i T2 src) (List.range src.length)
        = some src := by
    intro T2 hT2 hty2
    cases src with
    | nil => rfl
    | cons v0 vs =>
      rw [foreach_expand_eq_map _ (fun i => (v0 :: vs).getD i v0)]
      · exact congrArg some (range_map_getD (v0 :: vs) v0)
      · intro i hi
        have hi2 : i < (v0 :: vs).length := List.mem_range.mp hi
        have hi3 : i < T2.length := by omega
        have hc : c.cast T2[i] (v0 :: vs)[i] = (v0 :: vs)[i] :=
          hty2 i _ _ (List.getElem?_eq_getElem hi3) (List.getElem?_eq_getElem hi2)
        simp [visitors.get, std_get, List.getD_eq_getElem?_getD,
          List.getElem?_eq_getElem hi2, List.getElem?_eq_getElem hi3, hc]
  have hcon : foreach.construct c S src = some src :=
    foreach_construct_eq c S src hS.symm htyS
  refine ⟨?_, ?_, ?_⟩
  · simp only [foreach.visit, params_bind_mutable, if_true, hexp T hT htyT,
      Option.bind_eq_bind, Option.some_bind, hcon]
  · simp only [foreach.visit, params_bind_mutable, if_true, hexp S hS htyS,
      Option.bind_eq_bind, Option.some_bind, hcon]
  · have hb : (visitors.get : Visitor τ V (List V)).params.all (fun p => p.binds true)
        = false := rfl
    simp [foreach.visit_const, hb]

theorem foreach_get_identity_witness :
    [16, 32].length = [200, 300].length ∧ [8, 16].length = [200, 300].length ∧
    (∀ (i : Nat) (t : Nat) (v : Nat), [16, 32][i]? = some t → [200, 300][i]? = some v →
      fixedWidth.inhabits t v) ∧
    (∀ (i : Nat) (t : Nat) (v : Nat), [8, 16][i]? = some t → [200, 300][i]? = some v →
      fixedWidth.inhabits t v) ∧
    foreach.visit fixedWidth [16, 32] visitors.get [8, 16] (List.range [200, 300].length)
      [200, 300] = some [200, 300] ∧
    foreach.visit fixedWidth [8, 16] visitors.get [8, 16] (List.range [200, 300].length)
      [200, 300] = some [200, 300] ∧
    foreach.visit_const fixedWidth [16, 32] visitors.get [8, 16]
      (List.range [200, 300].length) [200, 300] = none :=
  have htyT : ∀ (i : Nat) (t : Nat) (v : Nat), [16, 32][i]? = some t →
      [200, 300][i]? = some v → fixedWidth.inhabits t v := by
    intro i t v ht hv
    match i, ht, hv with
    | 0, ht, hv => simp at ht hv; subst ht hv; exact rfl
    | 1, ht, hv => simp at ht hv; subst ht hv; exact rfl
    | _ + 2, ht, _ => simp at ht
  have htyS : ∀ (i : Nat) (t : Nat) (v : Nat), [8, 16][i]? = some t →
      [200, 300][i]? = some v → fixedWidth.inhabits t v := by
    intro i t v ht hv
    match i, ht, hv with
    | 0, ht, hv => simp at ht hv; subst ht hv; exact rfl
    | 1, ht, hv => simp at ht hv; subst ht hv; exact rfl
    | _ + 2, ht, _ => simp at ht
  ⟨by decide, by decide, htyT, htyS,
   foreach_get_identity fixedWidth [16, 32] [8, 16] [200, 300] (by decide) (by decide)
     htyT htyS⟩

/-! ## Lemmas on ntuple -/

/-- The recursion of `ntuple` adds `N` copies of `TYPE` behind the slots collected so far. -/
theorem ntuple_eq {τ : Type} (TYPE : τ) :
    ∀ (N : Nat) (RESULT : List τ), ntuple TYPE N RESULT = RESULT ++ List.replicate N TYPE := by
  intro N
  induction N with
  | zero => intro RESULT; simp [ntuple]
  | succ N ih =>
    intro RESULT
    rw [ntuple, ih, List.replicate_succ, List.append_assoc]
    rfl

/-! ## C11 -/

/-- Claim C11: for every scalar type, every rank R >= 0 and every value v of the scalar type,
`repeat_v::with(v)` returns a sequence of length R in which every slot has the scalar type and
equals v; for R = 0 it returns the empty sequence whatever the value is. -/
theorem repeat_v_with_replicates {τ V : Type} (c : Conversion τ V) (SCALAR : τ) (RANK : Nat)
    (v : V) (hv : c.inhabits SCALAR v) :
    repeat_v.with c SCALAR RANK v = some (List.replicate RANK v) ∧
    (List.replicate RANK v).length = RANK ∧
    (∀ i : Nat, i < RANK → (List.replicate RANK v)[i]? = some v) ∧
    repeat_v.tuple SCALAR RANK = List.replicate RANK SCALAR ∧
    (∀ w : V, repeat_v.with c SCALAR 0 w = some []) := by
  have htuple : ∀ n : Nat, repeat_v.tuple SCALAR n = List.replicate n SCALAR := by
    intro n
    simp [repeat_v.tuple, ntuple_t, ntuple_eq]
  refine ⟨?_, by simp, ?_, htuple RANK, ?_⟩
  · have hexp : foreach.expand
        (fun i => (visitors.repeat : Visitor τ V V).visit c i (List.replicate RANK SCALAR) v)
        (List.range RANK) = some (List.replicate RANK v) := by
      rw [foreach_expand_eq_map _ (fun _ => v)]
      · simp
      · intro i hi
        have hi2 : i < RANK := List.mem_range.mp hi
        have hc : c.cast SCALAR v = v := hv
        simp [visitors.repeat, List.getElem?_replicate, hi2, hc]
    have hcon : foreach.construct c (List.replicate RANK SCALAR) (List.replicate RANK v)
        = some (List.replicate RANK v) := by
      apply foreach_construct_eq c _ _ (by simp)
      intro i T w hT hw
      rw [List.getElem?_replicate] at hT hw
      split at hT
      · simp at hT hw
        obtain ⟨_, hw⟩ := hw
        rw [← hT, ← hw]
        exact hv
      · simp at hT
    rw [repeat_v.with, htuple, foreach_visit_const_eq_visit c _ visitors.repeat _ _ _ rfl]
    simp only [foreach.visit, params_bind_mutable, if_true, hexp, Option.bind_eq_bind,
      Option.some_bind, hcon]
  · intro i hi
    simp [List.getElem?_replicate, hi]
  · intro w
    rfl

theorem repeat_v_with_replicates_witness :
    fixedWidth.inhabits 32 7 ∧
    repeat_v.with fixedWidth 32 4 7 = some (List.replicate 4 7) ∧
    (List.replicate 4 7).length = 4 ∧
    (∀ i : Nat, i < 4 → (List.replicate 4 7)[i]? = some 7) ∧
    repeat_v.tuple 32 4 = List.replicate 4 32 ∧
    (∀ w : Nat, repeat_v.with fixedWidth 32 0 w = some []) :=
  ⟨rfl, repeat_v_with_replicates fixedWidth 32 4 7 rfl⟩

/-! ## C12 -/

/-- Claim C12: for every sequence type S and every single element type E (a type that is no
tuple), `append<E, S>::type` is a sequence type of length length(S) + 1 whose first length(S)
slots are the slots of S, in their order and with their types, and whose last slot is E. -/
theorem append_element (E : Ty) (TYPES : List Ty) (hE : is_tuple E = false) :
    append E (Ty.tuple TYPES) = some (Ty.tuple (TYPES ++ [E])) ∧
    (TYPES ++ [E]).length = TYPES.length + 1 ∧
    (∀ i : Nat, i < TYPES.length → (TYPES ++ [E])[i]? = TYPES[i]?) ∧
    (TYPES ++ [E])[TYPES.length]? = some E := by
  refine ⟨?_, by simp, ?_, by simp⟩
  · cases E with
    | elem name => rfl
    | tuple NEWTYPES => simp [is_tuple] at hE
  · intro i hi
    exact List.getElem?_append_left hi

theorem append_element_witness :
    is_tuple (Ty.elem "bool") = false ∧
    append (Ty.elem "bool") (Ty.tuple [Ty.elem "int", Ty.elem "char"])
      = some (Ty.tuple ([Ty.elem "int", Ty.elem "char"] ++ [Ty.elem "bool"])) :=
  ⟨rfl, (append_element (Ty.elem "bool") [Ty.elem "int", Ty.elem "char"] rfl).1⟩

/-! ## C13 -/

/-- Claim C13: for all sequence types S1 and S2, `append<S2, S1>::type` is the concatenation:
it has length length(S1) + length(S2), its slots are the slots of S1 followed by those of S2,
in order, and S2 is not nested as one compound slot; this merging branch is the one taken
exactly when `is_tuple` holds of the new part, the other new parts being appended as one slot. -/
theorem append_tuple (S1 S2 : List Ty) :
    append (Ty.tuple S2) (Ty.tuple S1) = some (Ty.tuple (S1 ++ S2)) ∧
    (S1 ++ S2).length = S1.length + S2.length ∧
    (∀ i : Nat, i < S1.length → (S1 ++ S2)[i]? = S1[i]?) ∧
    (∀ i : Nat, (S1 ++ S2)[S1.length + i]? = S2[i]?) ∧
    append (Ty.tuple S2) (Ty.tuple S1) ≠ some (Ty.tuple (S1 ++ [Ty.tuple S2])) ∧
    (∀ NEW : Ty, is_tuple NEW = true ↔
      ∃ NEWTYPES : List Ty, NEW = Ty.tuple NEWTYPES ∧
        append NEW (Ty.tuple S1) = some (Ty.tuple (S1 ++ NEWTYPES))) ∧
    (∀ NEW : Ty, is_tuple NEW = false ↔
      (append NEW (Ty.tuple S1) = some (Ty.tuple (S1 ++ [NEW])) ∧
        ∀ NEWTYPES : List Ty, NEW ≠ Ty.tuple NEWTYPES)) := by
  refine ⟨rfl, by simp, fun i hi => List.getElem?_append_left hi, ?_, ?_, ?_, ?_⟩
  · intro i
    rw [List.getElem?_append_right (by omega)]
    congr 1
    omega
  · intro h
    have h2 : S1 ++ S2 = S1 ++ [Ty.tuple S2] := by
      simpa [append] using h
    have h3 : S2 = [Ty.tuple S2] := List.append_cancel_left h2
    have hs := congrArg sizeOf h3
    simp at hs
    omega
  · intro NEW
    cases NEW with
    | elem name => simp [is_tuple]
    | tuple NEWTYPES => simp [is_tuple, append]
  · intro NEW
    cases NEW with
    | elem name => simp [is_tuple, append]
    | tuple NEWTYPES => simp [is_tuple]

/-! ## C14 -/

/-- Claim C14: for every element type T and every N >= 0, the recursive construction
`ntuple<T, N>` ends and yields a sequence type of length exactly N in which every slot has the
type T; for N = 0 it is the empty sequence. -/
theorem ntuple_t_replicates {τ : Type} (TYPE : τ) (N : Nat) :
    ntuple_t TYPE N = List.replicate N TYPE ∧
    (ntuple_t TYPE N).length = N ∧
    (∀ i : Nat, i < N → (ntuple_t TYPE N)[i]? = some TYPE) ∧
    (∀ T ∈ ntuple_t TYPE N, T = TYPE) ∧
    ntuple_t TYPE 0 = [] := by
  have h : ntuple_t TYPE N = List.replicate N TYPE := by
    simp [ntuple_t, ntuple_eq]
  refine ⟨h, by simp [h], ?_, ?_, rfl⟩
  · intro i hi
    simp [h, List.getElem?_replicate, hi]
  · intro T hT
    rw [h] at hT
    exact List.eq_of_mem_replicate hT

/-! ## C15 -/

/-- On the empty tuple every instantiation of `iterate::get` is ill-formed: whatever the
index, `std::get` has no slot to read. -/
theorem aggregate_iterate_get_nil {α β : Type} (F : AggregateFunctor α β) (INDEX : Nat)
    (result : α) : aggregate.iterate.get F INDEX result ([] : List β) = none := by
  cases INDEX <;> simp [aggregate.iterate.get, std_get]

/-- Claim C15: for every aggregate functor, `aggregate::from` applied to a zero-length
sequence is rejected: it yields no result, and in particular not the initial value of the
functor. -/
theorem aggregate_from_empty_rejected {α β : Type} (F : AggregateFunctor α β) :
    aggregate.from F ([] : List β) = none ∧
    aggregate.from F ([] : List β) ≠ some F.initial_value ∧
    size_minus_one ([] : List β).length = SIZE_MAX := by
  have h : aggregate.from F ([] : List β) = none := by
    rw [aggregate.from, aggregate_iterate_get_nil]
  refine ⟨h, ?_, rfl⟩
  rw [h]
  simp

/-! ## Further lemmas on aggregate -/

/-- On a tuple of one slot or more `aggregate::from` nests the combine from the last slot
(innermost) to slot 0 (outermost). -/
theorem aggregate_from_eq_foldr {α β : Type} (F : AggregateFunctor α β) (values : List β)
    (h : 1 ≤ values.length) :
    aggregate.from F values
      = some (List.foldr (fun x acc => F.value acc x) F.initial_value values) := by
  have hne : values.length ≠ 0 := by omega
  unfold aggregate.from size_minus_one
  rw [if_neg hne, aggregate_iterate_get_eq F values _ _ (by omega)]
  have : values.length - 1 + 1 = values.length := by omega
  rw [this, List.take_length, List.foldl_reverse]

/-- The counting functor computes the value of the functor and the number of slots. -/
theorem counting_foldr_eq {α β : Type} (F : AggregateFunctor α β) (values : List β) :
    List.foldr (fun x acc => F.counting.value acc x) F.counting.initial_value values
      = (List.foldr (fun x acc => F.value acc x) F.initial_value values, values.length) := by
  induction values with
  | nil => rfl
  | cons v vs ih =>
    simp only [List.foldr_cons, ih, List.length_cons]
    rfl

/-- The fold of integer addition from 0 is the sum of the list. -/
theorem foldr_add_eq_sum (values : List Int) :
    List.foldr (fun x acc => acc + x) 0 values = values.sum := by
  induction values with
  | nil => rfl
  | cons v vs ih =>
    simp only [List.foldr_cons, ih, List.sum_cons]
    omega

/-- The fold of the maximum from a lower bound is at least the bound and every element, and it
is the bound or one of the elements. -/
theorem foldr_max_spec (lo : Int) (values : List Int) :
    lo ≤ List.foldr (fun x acc => max acc x) lo values ∧
    (∀ x ∈ values, x ≤ List.foldr (fun x acc => max acc x) lo values) ∧
    (List.foldr (fun x acc => max acc x) lo values = lo ∨
      List.foldr (fun x acc => max acc x) lo values ∈ values) := by
  induction values with
  | nil => simp
  | cons v vs ih =>
    obtain ⟨h1, h2, h3⟩ := ih
    simp only [List.foldr_cons, List.mem_cons]
    refine ⟨le_trans h1 (le_max_left _ _), ?_, ?_⟩
    · intro x hx
      rcases hx with rfl | hx
      · exact le_max_right _ _
      · exact le_trans (h2 x hx) (le_max_left _ _)
    · rcases max_choice (List.foldr (fun x acc => max acc x) lo vs) v with hm | hm
      · rw [hm]
        rcases h3 with h3 | h3
        · exact Or.inl h3
        · exact Or.inr (Or.inr h3)
      · rw [hm]
        exact Or.inr (Or.inl rfl)

/-! ## C16 -/

/-- Claim C16: for every non-empty sequence of integers, `aggregate::from` with addition as
combine and the initial value 0 returns the sum of all the slots of the sequence, in exact
integer arithmetic; (1, 2, 3) gives 6. -/
theorem aggregate_from_sum (values : List Int) (h : 1 ≤ values.length) :
    aggregate.from (AggregateFunctor.mk (0 : Int) (fun a x => a + x)) values
      = some values.sum ∧
    aggregate.from (AggregateFunctor.mk (0 : Int) (fun a x => a + x)) [1, 2, 3] = some 6 := by
  constructor
  · rw [aggregate_from_eq_foldr _ values h]
    exact congrArg some (foldr_add_eq_sum values)
  · decide

theorem aggregate_from_sum_witness :
    1 ≤ [4, -7, 10].length ∧
    aggregate.from (AggregateFunctor.mk (0 : Int) (fun a x => a + x)) [4, -7, 10]
      = some ([4, -7, 10] : List Int).sum :=
  ⟨by decide, (aggregate_from_sum [4, -7, 10] (by decide)).1⟩

/-! ## C17 -/

/-- Claim C17: for every non-empty sequence of integers of a bounded integer type whose
smallest representable value is `lo`, `aggregate::from` with the maximum as combine and the
initial value `lo` returns the greatest slot value of the sequence; with the 32-bit `int`,
(5, 9, 2) gives 9. -/
theorem aggregate_from_max (lo : Int) (values : List Int) (h : 1 ≤ values.length)
    (hlo : ∀ x ∈ values, lo ≤ x) :
    (∃ m : Int, aggregate.from (AggregateFunctor.mk lo (fun a x => max a x)) values = some m ∧
      m ∈ values ∧ ∀ x ∈ values, x ≤ m) ∧
    aggregate.from (AggregateFunctor.mk (-(2 ^ 31) : Int) (fun a x => max a x)) [5, 9, 2]
      = some 9 := by
  constructor
  · obtain ⟨h1, h2, h3⟩ := foldr_max_spec lo values
    refine ⟨_, aggregate_from_eq_foldr _ values h, ?_, h2⟩
    rcases h3 with h3 | h3
    · match values, h, hlo, h2, h3 with
      | v :: vs, _, hlo, h2, h3 =>
        have hv1 : lo ≤ v := hlo v (by simp)
        have hv2 := h2 v (by simp)
        rw [h3] at hv2 ⊢
        have : v = lo := le_antisymm hv2 hv1
        rw [← this]
        simp
    · exact h3
  · decide

theorem aggregate_from_max_witness :
    1 ≤ [5, 9, 2].length ∧ (∀ x ∈ ([5, 9, 2] : List Int), (-(2 ^ 31) : Int) ≤ x) ∧
    (∃ m : Int, aggregate.from (AggregateFunctor.mk (-(2 ^ 31) : Int) (fun a x => max a x))
        [5, 9, 2] = some m ∧ m ∈ ([5, 9, 2] : List Int) ∧ ∀ x ∈ ([5, 9, 2] : List Int), x ≤ m) :=
  ⟨by decide, by decide,
   (aggregate_from_max (-(2 ^ 31)) [5, 9, 2] (by decide) (by decide)).1⟩

/-! ## C18 -/

/-- Claim C19: for every aggregate functor and every sequence of length n >= 1,
`aggregate::from` visits the slots in descending index order starting from the last: it
returns combine(...combine(combine(initial, slot_{n-1}), slot_{n-2})..., slot_0), and it
applies combine exactly n times, once per slot. -/
theorem aggregate_from_descending_counted {α β : Type} (F : AggregateFunctor α β)
    (values : List β) (h : 1 ≤ values.length) :
    aggregate.from F values
      = some (List.foldr (fun x acc => F.value acc x) F.initial_value values) ∧
    aggregate.from F.counting values
      = some (List.foldr (fun x acc => F.value acc x) F.initial_value values,
          values.length) := by
  constructor
  · exact aggregate_from_eq_foldr F values h
  · rw [aggregate_from_eq_foldr F.counting values h, counting_foldr_eq]

theorem aggregate_from_descending_counted_witness :
    1 ≤ [1, 2, 3].length ∧
    aggregate.from (AggregateFunctor.mk 0 (fun a x => 10 * a + x)) [1, 2, 3]
      = some (List.foldr (fun x acc => 10 * acc + x) 0 [1, 2, 3]) ∧
    aggregate.from (AggregateFunctor.mk 0 (fun a x => 10 * a + x)).counting [1, 2, 3]
      = some (List.foldr (fun x acc => 10 * acc + x) 0 [1, 2, 3], [1, 2, 3].length) :=
  ⟨by decide,
   aggregate_from_descending_counted (AggregateFunctor.mk 0 (fun a x => 10 * a + x))
     [1, 2, 3] (by decide)⟩

/-! ## C20 -/

/-- Claim C20: for every aggregate functor whose combine is insensitive to the order of its
elements, combine(combine(a, x), y) = combine(combine(a, y), x) for all a, x, y, and every
sequence of length n >= 1, `aggregate::from` returns the same value as the left fold over
ascending indices, and the same value for every permutation of the slots of the sequence. -/
theorem aggregate_from_order_insensitive {α β : Type} (F : AggregateFunctor α β)
    (hcomm : ∀ (a : α) (x y : β), F.value (F.value a x) y = F.value (F.value a y) x)
    (values : List β) (h : 1 ≤ values.length) :
    aggregate.from F values = some (List.foldl F.value F.initial_value values) ∧
    ∀ values' : List β, values'.Perm values →
      aggregate.from F values' = aggregate.from F values := by
  have key : ∀ l : List β, 1 ≤ l.length →
      aggregate.from F l = some (List.foldl F.value F.initial_value l) := by
    intro l hl
    rw [aggregate_from_eq_foldr F l hl, ← List.foldl_reverse]
    exact congrArg some
      ((List.reverse_perm l).foldl_eq' (fun x _ y _ z => hcomm z x y) F.initial_value)
  refine ⟨key values h, ?_⟩
  intro values' hp
  rw [key values h, key values' (by rw [hp.length_eq]; exact h)]
  exact congrArg some (hp.foldl_eq' (fun x _ y _ z => hcomm z x y) F.initial_value)

theorem aggregate_from_order_insensitive_witness :
    (∀ (a : Nat) (x y : Nat), a + x + y = a + y + x) ∧ 1 ≤ [1, 2, 3].length ∧
    aggregate.from (AggregateFunctor.mk 0 (fun a x => a + x)) [1, 2, 3]
      = some (List.foldl (fun a x => a + x) 0 [1, 2, 3]) ∧
    ∀ values' : List Nat, values'.Perm [1, 2, 3] →
      aggregate.from (AggregateFunctor.mk 0 (fun a x => a + x)) values'
        = aggregate.from (AggregateFunctor.mk 0 (fun a x => a + x)) [1, 2, 3] :=
  ⟨fun a x y => Nat.add_right_comm a x y, by decide,
   aggregate_from_order_insensitive (AggregateFunctor.mk 0 (fun a x => a + x))
     (fun a x y => Nat.add_right_comm a x y) [1, 2, 3] (by decide)⟩

end tupleware
